import Mathlib

/-!
Verification of the id/name-assignment helpers of the webpack excerpt
(`lib/ids/IdHelpers.js`, given as `src/unnamed/part_000`, cited below by its
original line numbers) and of `src/lib/library/SystemLibraryPlugin.js`.

Conventions of the shallow embedding:
* JavaScript numbers appearing as ids/counters are embedded as `Nat`
  (all values involved are small non-negative integers, exactly
  representable; places where this matters carry a note).
* A JS `Map` with its insertion-order iteration is embedded as an
  association list `List (key × value)`; a JS `Set` of strings as a
  `List String` queried with `List.contains` (only membership and
  emptiness of the set are ever observed by the source).
* In-place mutation (`assignName` / `assignId` callbacks, `chunk.id := …`)
  is embedded by returning the list of performed assignments or the
  updated record.
* `while` loops of the source are embedded with an explicit fuel
  argument; each use notes why the chosen fuel is sufficient.
-/

/-- Decimal digits of a natural number, most significant first.  The fuel
argument exists only for termination; `fuel = n` is always sufficient
because the value shrinks by a factor of ten each step. -/
def natDigitsAux : Nat → Nat → List Nat
  | 0, n => [n]
  | fuel + 1, n => if n < 10 then [n] else natDigitsAux fuel (n / 10) ++ [n % 10]

/-- Decimal digits of a natural number, most significant first. -/
def natDigits (n : Nat) : List Nat := natDigitsAux n n

/-- Rendering of a (natural) JS number as a decimal string: models the
JavaScript coercions `id + ""` and `name + i` used throughout the source. -/
def decimalString (n : Nat) : String := String.mk ((natDigits n).map (fun d => Char.ofNat (48 + d)))

/-- Value of a digit list, most significant digit first. -/
def digitsVal (l : List Nat) : Nat := l.foldl (fun a d => a * 10 + d) 0

theorem digitsVal_append_single (l : List Nat) (d : Nat) :
    digitsVal (l ++ [d]) = digitsVal l * 10 + d := by
  simp [digitsVal, List.foldl_append]

theorem natDigitsAux_spec : ∀ fuel n, n ≤ fuel →
    digitsVal (natDigitsAux fuel n) = n ∧ natDigitsAux fuel n ≠ [] ∧
      ∀ d ∈ natDigitsAux fuel n, d < 10 := by
  intro fuel
  induction fuel with
  | zero =>
    intro n hn
    have : n = 0 := Nat.le_zero.mp hn
    subst this
    refine ⟨rfl, by simp [natDigitsAux], ?_⟩
    intro d hd
    simp [natDigitsAux] at hd
    omega
  | succ f ih =>
    intro n hn
    by_cases h : n < 10
    · refine ⟨?_, ?_, ?_⟩
      · simp [natDigitsAux, h, digitsVal]
      · simp [natDigitsAux, h]
      · intro d hd
        simp [natDigitsAux, h] at hd
        omega
    · have h10 : 10 ≤ n := Nat.le_of_not_lt h
      have hpos : 0 < n := by omega
      have hdiv : n / 10 < n := Nat.div_lt_self hpos (by omega)
      have hdivle : n / 10 ≤ f := by omega
      obtain ⟨hv, hne, hb⟩ := ih (n / 10) hdivle
      refine ⟨?_, ?_, ?_⟩
      · simp only [natDigitsAux, if_neg h]
        rw [digitsVal_append_single, hv]
        omega
      · simp [natDigitsAux, if_neg h]
      · intro d hd
        simp only [natDigitsAux, if_neg h, List.mem_append, List.mem_singleton] at hd
        rcases hd with hd | hd
        · exact hb d hd
        · subst hd
          exact Nat.mod_lt _ (by omega)

theorem digitsVal_natDigits (n : Nat) : digitsVal (natDigits n) = n :=
  (natDigitsAux_spec n n (Nat.le_refl n)).1

theorem natDigits_lt_ten (n : Nat) : ∀ d ∈ natDigits n, d < 10 :=
  (natDigitsAux_spec n n (Nat.le_refl n)).2.2

theorem natDigits_injective : Function.Injective natDigits := by
  intro a b h
  have := digitsVal_natDigits a
  rw [h, digitsVal_natDigits] at this
  omega

theorem decDigitChar_toNat : ∀ d, d < 10 → (Char.ofNat (48 + d)).toNat = 48 + d := by decide

theorem map_decDigitChar_inj : ∀ (a b : List Nat), (∀ d ∈ a, d < 10) → (∀ d ∈ b, d < 10) →
    a.map (fun d => Char.ofNat (48 + d)) = b.map (fun d => Char.ofNat (48 + d)) → a = b := by
  intro a
  induction a with
  | nil =>
    intro b _ _ h
    cases b with
    | nil => rfl
    | cons x xs => simp at h
  | cons x xs ih =>
    intro b ha hb h
    cases b with
    | nil => simp at h
    | cons y ys =>
      simp only [List.map_cons, List.cons.injEq] at h
      have hx : x < 10 := ha x (List.mem_cons_self x xs)
      have hy : y < 10 := hb y (List.mem_cons_self y ys)
      have hxy : x = y := by
        have := congrArg Char.toNat h.1
        rw [decDigitChar_toNat x hx, decDigitChar_toNat y hy] at this
        omega
      have : xs = ys :=
        ih ys (fun d hd => ha d (List.mem_cons_of_mem _ hd))
          (fun d hd => hb d (List.mem_cons_of_mem _ hd)) h.2
      rw [hxy, this]

theorem decimalString_injective : Function.Injective decimalString := by
  intro a b h
  have hlist : (natDigits a).map (fun d => Char.ofNat (48 + d)) =
      (natDigits b).map (fun d => Char.ofNat (48 + d)) := congrArg String.data h
  exact natDigits_injective
    (map_decDigitChar_inj _ _ (natDigits_lt_ten a) (natDigits_lt_ten b) hlist)

/-! ### The MD4 digest

Modelled from the spec: the hashing primitive `createHash("md4")` comes from
`../util/createHash`, which is not among the sources under verification.  The
spec (§4.1) describes it as a deterministic, collision-resistant 128-bit
content hash rendered as lowercase hex, the original using a 128-bit digest;
the source requests the algorithm `"md4"`, so we model it as the MD4 digest of
RFC 1320 over the string's bytes (for the ASCII strings appearing in all
concrete statements below, codepoints coincide with the hashed UTF-8 bytes). -/

/-- Left rotation of a 32-bit word (the word is kept `< 2 ^ 32` by masking). -/
def rotl32 (x s : Nat) : Nat := ((x <<< s) ||| (x >>> (32 - s))) &&& 0xffffffff

def md4F (x y z : Nat) : Nat := (x &&& y) ||| ((x ^^^ 0xffffffff) &&& z)

def md4G (x y z : Nat) : Nat := (x &&& y) ||| (x &&& z) ||| (y &&& z)

def md4H (x y z : Nat) : Nat := x ^^^ y ^^^ z

structure Md4State where
  a : Nat
  b : Nat
  c : Nat
  d : Nat

/-- One MD4 operation: update the first register from the other three and the
message word `ks.1` with rotation `ks.2`, then rotate the register roles. -/
def md4Step (f : Nat → Nat → Nat → Nat) (add : Nat) (x : List Nat) (st : Md4State)
    (ks : Nat × Nat) : Md4State :=
  let v := rotl32 ((st.a + f st.b st.c st.d + x.getD ks.1 0 + add) % 4294967296) ks.2
  ⟨st.d, v, st.b, st.c⟩

def md4Round1 : List (Nat × Nat) :=
  [(0,3),(1,7),(2,11),(3,19),(4,3),(5,7),(6,11),(7,19),(8,3),(9,7),(10,11),(11,19),(12,3),(13,7),(14,11),(15,19)]

def md4Round2 : List (Nat × Nat) :=
  [(0,3),(4,5),(8,9),(12,13),(1,3),(5,5),(9,9),(13,13),(2,3),(6,5),(10,9),(14,13),(3,3),(7,5),(11,9),(15,13)]

def md4Round3 : List (Nat × Nat) :=
  [(0,3),(8,9),(4,11),(12,15),(2,3),(10,9),(6,11),(14,15),(1,3),(9,9),(5,11),(13,15),(3,3),(11,9),(7,11),(15,15)]

def md4Block (st : Md4State) (x : List Nat) : Md4State :=
  let s1 := md4Round1.foldl (md4Step md4F 0 x) st
  let s2 := md4Round2.foldl (md4Step md4G 0x5a827999 x) s1
  let s3 := md4Round3.foldl (md4Step md4H 0x6ed9eba1 x) s2
  ⟨(st.a + s3.a) % 4294967296, (st.b + s3.b) % 4294967296,
   (st.c + s3.c) % 4294967296, (st.d + s3.d) % 4294967296⟩

/-- Little-endian byte rendering of `n` on `k` bytes. -/
def leBytes (k n : Nat) : List Nat := (List.range k).map (fun i => (n >>> (8 * i)) % 256)

/-- MD4 padding: a `0x80` byte, zeros to 56 mod 64, then the bit length on
8 little-endian bytes. -/
def md4Pad (msg : List Nat) : List Nat :=
  msg ++ [128] ++ List.replicate ((119 - msg.length % 64) % 64) 0 ++
    leBytes 8 ((msg.length * 8) % 18446744073709551616)

/-- Split a byte list into 64-byte blocks (fuel-driven; `fuel = l.length` is
always enough since each step consumes 64 bytes). -/
def chunks64Aux : Nat → List Nat → List (List Nat)
  | 0, _ => []
  | _, [] => []
  | fuel + 1, l => l.take 64 :: chunks64Aux fuel (l.drop 64)

/-- The sixteen little-endian 32-bit words of a 64-byte block. -/
def wordsOfBlock (b : List Nat) : List Nat :=
  (List.range 16).map (fun j =>
    b.getD (4 * j) 0 + (b.getD (4 * j + 1) 0) * 256 + (b.getD (4 * j + 2) 0) * 65536 +
      (b.getD (4 * j + 3) 0) * 16777216)

def md4Init : Md4State := ⟨0x67452301, 0xefcdab89, 0x98badcfe, 0x10325476⟩

/-- MD4 digest (16 bytes) of a byte sequence. -/
def md4Bytes (msg : List Nat) : List Nat :=
  let padded := md4Pad msg
  let final := (chunks64Aux padded.length padded).foldl
    (fun st blk => md4Block st (wordsOfBlock blk)) md4Init
  leBytes 4 final.a ++ leBytes 4 final.b ++ leBytes 4 final.c ++ leBytes 4 final.d

/-- Lowercase hex character of a nibble. -/
def hexDigitChar (n : Nat) : Char := if n < 10 then Char.ofNat (48 + n) else Char.ofNat (87 + n)

/-- Lowercase hex rendering of a byte list, high nibble of each byte first. -/
def bytesToHexChars (l : List Nat) : List Char :=
  l.foldr (fun b acc => hexDigitChar (b / 16) :: hexDigitChar (b % 16) :: acc) []

/-- Bytes hashed for a string; for ASCII strings (the only concrete inputs
below) this is exactly the UTF-8 byte sequence JS hashes. -/
def strBytes (s : String) : List Nat := s.data.map Char.toNat

/-- `createHash("md4")` + `update` + `digest("hex")`: the full 32-character
lowercase hex MD4 digest of a string. -/
def md4hex (s : String) : String := String.mk (bytesToHexChars (md4Bytes (strBytes s)))

/-- RFC 1320 test vector for the empty string. -/
theorem md4hex_empty : md4hex "" = "31d6cfe0d16ae931b73c59d7e0c089c0" := by decide

/-- RFC 1320 test vector for "abc". -/
theorem md4hex_abc : md4hex "abc" = "a448017aaf21d8525fc10ae87aa6729d" := by decide

/-- RFC 1320 test vector for "message digest" (exercises longer input). -/
theorem md4hex_message_digest : md4hex "message digest" = "d9130a8164549fe818874806e1c7014b" := by
  decide

/-! ### String helpers of the source (`src/unnamed/part_000`) -/

/-- The function `getHash` (lines 191–195): MD4 hex digest truncated with
`substr(0, len)` to at most `len` characters. -/
def getHash (str : String) (len : Nat) : String := String.mk ((md4hex str).data.take len)

/-- Scan of the hex digest performed by `getHashNumber` (lines 202–219):
accumulate characters with char code below 58 (the decimal digits of the
digest) into a base-10 accumulator, returning as soon as `len` reaches a value
below 1; on exhaustion pad with a trailing 1 digit scaled by the missing
width.  `len` is embedded as `Nat`: for the initial `len ≥ 1` of the claim the
JS counter never becomes negative before returning, so `Nat` subtraction is
exact; only the (never used) call with `len = 0` on an all-letter digest
would differ from JS, which produces the fractional `0.1` there. -/
def scanDigest : List Char → Nat → Nat → Nat
  | [], result, len => (result * 10 + 1) * 10 ^ (len - 1)
  | c :: rest, result, len =>
    if c.toNat < 58 then
      if len ≤ 1 then result * 10 + (c.toNat - 48)
      else scanDigest rest (result * 10 + (c.toNat - 48)) (len - 1)
    else scanDigest rest result len

/-- The function `getHashNumber` (lines 202–219). -/
def getHashNumber (str : String) (len : Nat) : Nat := scanDigest (md4hex str).data 0 len

/-- Number of accumulated (decimal) characters of a digest. -/
def digitCount (l : List Char) : Nat := (l.filter (fun c => c.toNat < 58)).length

/-- Base-10 accumulation of the decimal characters of a digest, starting
from `r`. -/
def foldDigits : Nat → List Char → Nat
  | r, [] => r
  | r, c :: rest =>
    if c.toNat < 58 then foldDigits (r * 10 + (c.toNat - 48)) rest else foldDigits r rest

/-- Decimal digit characters `0`–`9`, by their codes. -/
def isDigitChar (c : Char) : Bool := 48 ≤ c.toNat && c.toNat ≤ 57

/-- Value of a decimal digit-character list, most significant first. -/
def digitsToNat (l : List Char) : Nat := digitsVal (l.map (fun d => d.toNat - 48))

/-- Split a character list at the first occurrence of `c`. -/
def splitOnChar (c : Char) : List Char → Option (List Char × List Char)
  | [] => none
  | x :: rest =>
    if x = c then some ([], rest)
    else
      match splitOnChar c rest with
      | none => none
      | some (a, b) => some (x :: a, b)

/-- Whether `2 ^ L ≤ N / D` for positive `N`, `D`. -/
def pow2LE (N D : Nat) (L : Int) : Bool :=
  if 0 ≤ L then D * 2 ^ L.toNat ≤ N else D ≤ N * 2 ^ (-L).toNat

/-- Correction loop for the leading-bit position of `N / D`; the initial
estimate from the bit lengths is off by at most one, so fuel 3 always
suffices. -/
def floorLog2Adjust (N D : Nat) : Nat → Int → Int
  | 0, L => L
  | fuel + 1, L =>
    if pow2LE N D L then
      if pow2LE N D (L + 1) then floorLog2Adjust N D fuel (L + 1) else L
    else floorLog2Adjust N D fuel (L - 1)

/-- Number of binary digits of `n` (0 for 0); the fuel argument only serves
termination and `fuel = n` always suffices since the value halves each
step. -/
def bitLenAux : Nat → Nat → Nat
  | 0, _ => 0
  | fuel + 1, n => if n = 0 then 0 else bitLenAux fuel (n / 2) + 1

/-- Number of binary digits of `n`. -/
def bitLen (n : Nat) : Nat := bitLenAux n n

/-- The integer `L` with `2 ^ L ≤ N / D < 2 ^ (L + 1)` (`N`, `D` positive). -/
def floorLog2Rat (N D : Nat) : Int :=
  floorLog2Adjust N D 3 ((bitLen N : Int) - (bitLen D : Int))

/-- Nearest IEEE-754 binary64 value (round half to even) of the positive
number `S * 10 ^ p`, as a pair `(M, E)` with value `M * 2 ^ E` and
`M < 2 ^ 53` (subnormals have `E = -1074` and `M < 2 ^ 52`).  Yields `none`
when the value rounds to `0` or beyond the largest finite double, where JS
prints "0" or "Infinity" and no plain numeric string round-trips. -/
def nearestDouble (S : Nat) (p : Int) : Option (Nat × Int) :=
  if S = 0 then none
  else
    let N := if 0 ≤ p then S * 10 ^ p.toNat else S
    let D := if 0 ≤ p then 1 else 10 ^ (-p).toNat
    let L := floorLog2Rat N D
    let E := max (L - 52) (-1074)
    let num := if 0 ≤ E then N else N * 2 ^ (-E).toNat
    let den := if 0 ≤ E then D * 2 ^ E.toNat else D
    let q := num / den
    let r := num % den
    let M := q + (if den < 2 * r || (2 * r = den && q % 2 = 1) then 1 else 0)
    let M2 := if M = 9007199254740992 then 4503599627370496 else M
    let E2 := if M = 9007199254740992 then E + 1 else E
    if M2 = 0 then none
    else if 971 < E2 then none
    else some (M2, E2)

/-- Does `Number.prototype.toString` applied to the nearest double of
`S * 10 ^ p` (`S` positive and not divisible by 10) choose exactly the
significand `S` at decimal exponent `p`?  Per ECMAScript, the printed
significand is a decimal that rounds back to the double with the fewest
significant digits, closest to the double, a tie on the last digit going to
the even significand.  The set of decimals rounding to the double
`M * 2 ^ E` is the interval reaching half a unit in the last place to
either side — half of the *previous* gap below when `M = 2 ^ 52` is the
smallest normal mantissa of its binade — with closed ends exactly when `M`
is even (round half to even).  A decimal in that interval with fewer
significant digits than `S` is precisely a multiple of `10 ^ (p + 1)`, and
only the two multiples of `10 ^ p` adjacent to the double can lie closer to
it than `S * 10 ^ p`.  Everything is scaled by `2 ^ a * 10 ^ b` to stay in
`Nat`. -/
def jsShortestWins (S : Nat) (p : Int) : Bool :=
  match nearestDouble S p with
  | none => false
  | some (M, E) =>
    let a := (max 0 (2 - E)).toNat
    let b := (max 0 (-p)).toNat
    let u := 10 ^ (p + b).toNat * 2 ^ a
    let Vs := S * u
    let Ds := M * 2 ^ (E + a).toNat * 10 ^ b
    let hg := 2 ^ (E - 1 + a).toNat * 10 ^ b
    let lg := if M = 4503599627370496 && decide (-1074 < E) then
        2 ^ (E - 2 + a).toNat * 10 ^ b
      else hg
    let lo := Ds - lg
    let hi := Ds + hg
    let incl := M % 2 = 0
    let inInt := fun (w : Nat) =>
      0 < w && (if incl then lo ≤ w && w ≤ hi else lo < w && w < hi)
    let shorterLow := ((if incl then lo else lo + 1) + (10 * u - 1)) / (10 * u) * (10 * u)
    let shorterExists := 0 < shorterLow && shorterLow ≤ (if incl then hi else hi - 1)
    let dv := if Ds ≤ Vs then Vs - Ds else Ds - Vs
    let beats := fun (w : Nat) =>
      w ≠ Vs && inInt w &&
        (let dw := if Ds ≤ w then w - Ds else Ds - w
         dw < dv || (dw = dv && S % 2 = 1))
    let cF := Ds / u * u
    !shorterExists && !beats cF && !beats (cF + u)

/-- Canonical plain (non-exponent) positive numeric strings, following the
output grammar of `Number.prototype.toString`: an integer of at most 21
digits without leading zero, or `I.F` with non-empty fraction not ending in
`0` (at most five zeros after the point when the integer part is `0`),
whose significand the printer indeed selects.  For an integer below
`2 ^ 53` the double is exact and its rounding interval, of width at most
one, contains no second decimal of at most the same significant-digit
count, so the winner check is skipped. -/
def jsCanonicalPlain (l : List Char) : Bool :=
  match splitOnChar '.' l with
  | none =>
    l.all isDigitChar && l ≠ [] && l.head? ≠ some '0' && decide (l.length ≤ 21) &&
      (let v := digitsToNat l
       decide (v < 9007199254740992) ||
         (let z := (l.reverse.takeWhile (fun d => d = '0')).length
          jsShortestWins (v / 10 ^ z) z))
  | some (I, F) =>
    I.all isDigitChar && F.all isDigitChar && I ≠ [] && F ≠ [] &&
      F.getLast? ≠ some '0' && decide (I.length ≤ 21) &&
      (if I = ['0'] then decide ((F.takeWhile (fun d => d = '0')).length ≤ 5)
       else I.head? ≠ some '0') &&
      jsShortestWins (digitsToNat (I ++ F)) (-(F.length : Int))

/-- Canonical exponent-form positive numeric strings `d.fffe±X`: a single
nonzero leading digit, an optional fraction not ending in `0`, a signed
exponent without leading zeros, the decimal position `n` outside the plain
range (`n ≥ 22` or `n ≤ -6`), and the significand selected by the
printer. -/
def jsCanonicalExp (m ex : List Char) : Bool :=
  match ex with
  | [] => false
  | sign :: xs =>
    (sign = '+' || sign = '-') && xs.all isDigitChar && xs ≠ [] && xs.head? ≠ some '0' &&
      (let n : Int := if sign = '+' then (digitsToNat xs : Int) + 1 else 1 - (digitsToNat xs : Int)
       (decide (22 ≤ n) || decide (n ≤ -6)) &&
         (match splitOnChar '.' m with
          | none =>
            m.all isDigitChar && m.length = 1 && m.head? ≠ some '0' &&
              jsShortestWins (digitsToNat m) (n - 1)
          | some (I, F) =>
            I.all isDigitChar && F.all isDigitChar && I.length = 1 && I.head? ≠ some '0' &&
              F ≠ [] && F.getLast? ≠ some '0' &&
              jsShortestWins (digitsToNat (I ++ F)) (n - 1 - (F.length : Int))))

/-- Does the positive numeric string round-trip through `Number` and
`toString`, i.e. is it the canonical rendering of its own value? -/
def jsCanonicalPositive (l : List Char) : Bool :=
  l = ['0'] ||
    (match splitOnChar 'e' l with
     | none => jsCanonicalPlain l
     | some (m, ex) => jsCanonicalExp m ex)

/-- The test `str === +str + ""` of `avoidNumber` (line 226): true exactly
when the string is the canonical JS string rendering of its own numeric
value, that is, one of `"NaN"`, `"Infinity"`, `"-Infinity"`, `"0"`, or an
optionally negated output of `Number.prototype.toString` — modelled exactly
through correctly rounded decimal-to-binary64 conversion and the
shortest-round-trip selection of the printer. -/
def isCanonicalNumString (s : String) : Bool :=
  s = "NaN" || s = "Infinity" || s = "-Infinity" ||
    (if s.data.head? = some '-' then jsCanonicalPositive s.data.tail && s.data.tail ≠ ['0']
     else jsCanonicalPositive s.data)

/-- The function `avoidNumber` (lines 225–230). -/
def avoidNumber (str : String) : String :=
  if isCanonicalNumString str then "_" ++ str else str

/-- Character class `[A-Za-z0-9_-]` of the sanitization regexes in
`requestToId` (lines 236–240). -/
def isIdChar (c : Char) : Bool :=
  ('A' ≤ c && c ≤ 'Z') || ('a' ≤ c && c ≤ 'z') || ('0' ≤ c && c ≤ '9') || c = '_' || c = '-'

/-- First replacement of `requestToId`: `replace(/^(\.\.?\/)+/, "")`.  At each
repetition the alternation is decided by the second character (`/` gives
`./`, `.` demands `../`), so the regex equals this deterministic loop. -/
def stripDotsList : List Char → List Char
  | '.' :: '/' :: rest => stripDotsList rest
  | '.' :: '.' :: '/' :: rest => stripDotsList rest
  | l => l

/-- Leading `./` and `../` segments of a string removed. -/
def stripDotSegments (s : String) : String := String.mk (stripDotsList s.data)

/-- Second replacement of `requestToId`:
`replace(/(^[.-]|[^a-zA-Z0-9_-])+/g, "_")`.  A character is part of a
replaced run when it is outside `[A-Za-z0-9_-]`, or is `.` or `-` at
position 0 (`first`); each maximal run contributes a single underscore
(`inRun` tracks whether the current run already emitted it). -/
def isBadAt (first : Bool) (c : Char) : Bool :=
  (first && (c == '.' || c == '-')) || !isIdChar c

/-- Replacement of the maximal bad runs by single underscores. -/
def replaceBadRuns : List Char → Bool → Bool → List Char
  | [], _, _ => []
  | c :: rest, first, inRun =>
    if isBadAt first c then
      (if inRun then [] else ['_']) ++ replaceBadRuns rest false true
    else c :: replaceBadRuns rest false false

/-- The function `requestToId` (lines 236–240). -/
def requestToId (request : String) : String :=
  String.mk (replaceBadRuns (stripDotsList request.data) true false)

/-- `String.prototype.slice(0, e)` with a possibly negative end index `e`:
a negative `e` counts from the end of the string (clamped at 0). -/
def jsSliceToEnd (s : String) (e : Int) : String :=
  String.mk (s.data.take (if e < 0 then ((s.data.length : Int) + e).toNat else e.toNat))

/-- The function `shortenLongString` (lines 248–253). -/
def shortenLongString (string delimiter : String) : String :=
  if string.length < 100 then string
  else jsSliceToEnd string (100 - 6 - (delimiter.length : Int)) ++ delimiter ++ getHash string 6

/-! ### Modules, chunks and name derivation -/

/-- A module of the bundler, the source's `Module` (spec §3; named `WpModule` here because Mathlib reserves `Module`): this subsystem reads its human-readable identity
`libIdent` (the value the external `libIdent({context})` method yields for
the ambient context directory, `none` when the method yields null) and its
globally unique `identifier`. -/
structure WpModule where
  libIdent : Option String
  identifier : String
deriving DecidableEq

/-- A chunk (spec §3): hint strings, optional preset name, mutable id and
alias list. -/
structure Chunk where
  idNameHints : List String
  name : Option String
  id : Option Nat
  ids : List Nat
deriving DecidableEq

/-- The function `getShortModuleName` (lines 261–266): `|| ""` turns a
missing (or empty) `libIdent` into the empty string. -/
def getShortModuleName (module : WpModule) : String :=
  avoidNumber (module.libIdent.getD "")

/-- The function `getFullModuleName` (lines 292–299).  Modelled from the
spec: `makePathsRelative` from `../util/identifier` is not among the
sources; spec §1/§4.2 treat path relativization as an external black box, so
it is embedded as an explicit function argument `mpr` from a module's
canonical identifier to its context-relative path. -/
def getFullModuleName (mpr : String → String) (module : WpModule) : String :=
  mpr module.identifier

/-- The function `getLongModuleName` (lines 275–284). -/
def getLongModuleName (mpr : String → String) (shortName : String) (module : WpModule) : String :=
  shortName ++ "?" ++ getHash (getFullModuleName mpr module) 4

/-- The function `getShortChunkName` (lines 309–325).  The chunk graph's
`getChunkRootModules chunk` is supplied as `rootModules`;
`chunk.idNameHints.sort()` mutates the hint set in place, embedded by also
returning the updated chunk; the JS default string sort is embedded as the
stable `List.insertionSort` with the string order. -/
def getShortChunkName (chunk : Chunk) (rootModules : List WpModule) (delimiter : String) :
    String × Chunk :=
  let shortModuleNames := rootModules.map (fun m => requestToId (getShortModuleName m))
  let sortedHints := List.insertionSort (fun a b : String => a ≤ b) chunk.idNameHints
  let chunkName := String.intercalate delimiter (sortedHints ++ shortModuleNames)
  (shortenLongString chunkName delimiter, { chunk with idNameHints := sortedHints })

/-- The function `getLongChunkName` (lines 336–355): as the short variant,
additionally appending the sanitized long module names (computed with an
empty short-name part). -/
def getLongChunkName (mpr : String → String) (chunk : Chunk) (rootModules : List WpModule)
    (delimiter : String) : String × Chunk :=
  let shortModuleNames := rootModules.map (fun m => requestToId (getShortModuleName m))
  let longModuleNames := rootModules.map (fun m => requestToId (getLongModuleName mpr "" m))
  let sortedHints := List.insertionSort (fun a b : String => a ≤ b) chunk.idNameHints
  let chunkName := String.intercalate delimiter (sortedHints ++ shortModuleNames ++ longModuleNames)
  (shortenLongString chunkName delimiter, { chunk with idNameHints := sortedHints })

/-! ### The name collision resolver `assignNames` -/

/-- The helper `addToMapOfItems` (lines 388–395) over the association-list
embedding of a JS `Map` (keys in insertion order, values appended). -/
def addToMapOfItems {K V : Type} [DecidableEq K] (map : List (K × List V)) (key : K)
    (value : V) : List (K × List V) :=
  match map with
  | [] => [(key, [value])]
  | (k, vs) :: rest =>
    if k = key then (k, vs ++ [value]) :: rest else (k, vs) :: addToMapOfItems rest key value

/-- Result of an `assignNames` pass: the `assignName` calls in order, the
final used-name set, and the returned unnamed items. -/
structure NamesResult (T : Type) where
  assignments : List (T × String)
  usedIds : List String
  unnamed : List T
deriving DecidableEq

/-- Phase 1 of `assignNames` (lines 465–471): group the items by short name
in input order. -/
def groupByShortName {T : Type} (getShortName : T → String) (items : List T) :
    List (String × List T) :=
  items.foldl (fun m item => addToMapOfItems m (getShortName item) item) []

/-- Phase 2 of `assignNames` (lines 473–485): buckets with several items or
an empty name (`!name` holds exactly for `""`) are regrouped by long name;
other buckets keep their single item (`items[0]`, so the impossible empty
bucket falls through unchanged). -/
def regroupByLongName {T : Type} (getLongName : T → String → String)
    (m : List (String × List T)) : List (String × List T) :=
  m.foldl
    (fun m2 bucket =>
      if bucket.2.length > 1 || bucket.1 = "" then
        bucket.2.foldl (fun m2 item => addToMapOfItems m2 (getLongName item bucket.1) item) m2
      else
        match bucket.2 with
        | [item] => addToMapOfItems m2 bucket.1 item
        | _ => m2)
    []

/-- The loop `while (nameToItems2.has(name + i) && usedIds.has(name + i)) i++`
(line 502).  The fuel only serves termination and never runs out at
`keys.length + 1`: that many consecutive candidates `name ++ i` are pairwise
distinct (`decimalString` is injective), so at most `keys.length` of them
can be keys of the map and the conjunction fails within the fuel. -/
def findFree (keys used : List String) (name : String) : Nat → Nat → Nat
  | 0, i => i
  | fuel + 1, i =>
    if keys.contains (name ++ decimalString i) && used.contains (name ++ decimalString i) then
      findFree keys used name fuel (i + 1)
    else i

/-- The suffixed-assignment branch of phase 3 (lines 498–507): one counter
`i` runs over the sorted bucket; each item gets `name ++ i` for the first
`i` at which the loop condition fails, that string joins the used set, and
the counter advances once more. -/
def assignSuffixes {T : Type} (name : String) (keys : List String) :
    List T → Nat → NamesResult T → NamesResult T
  | [], _, st => st
  | item :: rest, i, st =>
    let j := findFree keys st.usedIds name (keys.length + 1) i
    assignSuffixes name keys rest (j + 1)
      { st with
        assignments := st.assignments ++ [(item, name ++ decimalString j)],
        usedIds := st.usedIds ++ [name ++ decimalString j] }

/-- Phase 3 of `assignNames` (lines 487–508), processing one bucket: empty
name collects the items as unnamed; an unreserved singleton takes its name
directly; otherwise the bucket is sorted by the comparator and suffixed. -/
def processBucket {T : Type} (r : T → T → Prop) [DecidableRel r] (keys : List String)
    (st : NamesResult T) (bucket : String × List T) : NamesResult T :=
  if bucket.1 = "" then { st with unnamed := st.unnamed ++ bucket.2 }
  else if bucket.2.length == 1 && !st.usedIds.contains bucket.1 then
    match bucket.2 with
    | [item] =>
      { st with
        assignments := st.assignments ++ [(item, bucket.1)],
        usedIds := st.usedIds ++ [bucket.1] }
    | _ => st
  else assignSuffixes bucket.1 keys (List.insertionSort r bucket.2) 0 st

/-- The function `assignNames` (lines 457–513).  The comparator is embedded
as the relation `r a b ↔ comparator(a, b) ≤ 0` and `Array.prototype.sort`
(required to be stable) as `List.insertionSort r`. -/
def assignNames {T : Type} (items : List T) (getShortName : T → String)
    (getLongName : T → String → String) (r : T → T → Prop) [DecidableRel r]
    (usedIds : List String) : NamesResult T :=
  let nameToItems2 := regroupByLongName getLongName (groupByShortName getShortName items)
  let keys := nameToItems2.map Prod.fst
  let st := nameToItems2.foldl (processBucket r keys) ⟨[], usedIds, []⟩
  { st with unnamed := List.insertionSort r st.unnamed }

/-! ### The deterministic id assigner -/

/-- The width computation `Math.ceil(Math.log10(items.length * 1.25 + 1))`
(line 536): for a real `x > 0`, `ceil(log10 x)` is the least `k` with
`10 ^ k ≥ x`, here `x = (5n + 4) / 4`, giving the integer condition
`5n + 4 ≤ 4 * 10 ^ k` (`k = n + 1` always satisfies it, so the bounded
search below never falls back). -/
def optimalLength (count : Nat) : Nat :=
  (((List.range (count + 2)).filter (fun k => 5 * count + 4 ≤ 4 * 10 ^ k)).headD (count + 1))

/-- The probe loop of `assignDeterministicIds` (lines 550–553):
`do { id = getHashNumber(ident + i++, len) } while (usedIds.has(id + ""))`.
The JS loop is unbounded (spec §9 notes it may probe arbitrarily long on
dense reserved sets), so the embedding carries explicit fuel and yields
`none` when the fuel is exhausted. -/
def probeId (ident : String) (len : Nat) (used : List String) : Nat → Nat → Option Nat
  | 0, _ => none
  | fuel + 1, i =>
    let id := getHashNumber (ident ++ decimalString i) len
    if used.contains (decimalString id) then probeId ident len used fuel (i + 1) else some id

/-- The assignment loop of `assignDeterministicIds` (lines 547–556): probe an
id for every item in order, reserving each committed id for the following
ones. -/
def detGo {T : Type} (getName : T → String) (len fuel : Nat) :
    List T → List String → List (T × Nat) → Option (List (T × Nat) × List String)
  | [], used, acc => some (acc, used)
  | item :: rest, used, acc =>
    match probeId (getName item) len used fuel 0 with
    | none => none
    | some id => detGo getName len fuel rest (used ++ [decimalString id]) (acc ++ [(item, id)])

/-- The function `assignDeterministicIds` (lines 525–557); `maxLength` models
the optional numeric argument (`typeof maxLength === "number" ? maxLength : 0`). -/
def assignDeterministicIds {T : Type} (items : List T) (getName : T → String)
    (r : T → T → Prop) [DecidableRel r] (maxLength : Option Nat) (usedIds : List String)
    (fuel : Nat) : Option (List (T × Nat) × List String) :=
  let sorted := List.insertionSort r items
  let usedMaxLength := max (min (maxLength.getD 0) 15) (optimalLength items.length)
  detGo getName usedMaxLength fuel sorted usedIds []

/-! ### The ascending id assigners -/

/-- The function `getUsedModuleIds` (lines 401–421).  A compilation is
embedded by `compilation.usedModuleIds` (already rendered to strings, as the
source does with `id + ""`) together with the current id slot of each module
of `compilation.modules`; `chunkGraph.getModuleId` reads that slot. -/
def getUsedModuleIds (usedModuleIds : List String) (ids : List (Option Nat)) : List String :=
  usedModuleIds ++ ids.filterMap (fun o => o.map decimalString)

/-- The function `getUsedChunkIds` (lines 427–445), analogously over the
chunks of the compilation. -/
def getUsedChunkIds (usedChunkIds : List String) (chunks : List Chunk) : List String :=
  usedChunkIds ++ chunks.filterMap (fun c => c.id.map decimalString)

/-- The loop `while (usedIds.has(nextId + "")) nextId++` (lines 575 and 604).
Fuel `used.length + 1` always suffices: that many consecutive counters
render to pairwise distinct strings (`decimalString` is injective), which
cannot all lie in `used`; `skipUsed_not_used` below proves the result
unreserved. -/
def skipUsedAux (used : List String) : Nat → Nat → Nat
  | 0, n => n
  | fuel + 1, n =>
    if used.contains (decimalString n) then skipUsedAux used fuel (n + 1) else n

/-- First counter value at or after `n` whose string form is not reserved. -/
def skipUsed (used : List String) (n : Nat) : Nat := skipUsedAux used (used.length + 1) n

/-- The per-module assignment of `assignAscendingModuleIds` (lines 570–588):
a module whose id slot is filled is skipped; an empty slot receives the
counter, after skipping reserved values when the used set is non-empty. -/
def ascendModuleGo (used : List String) (hasUsed : Bool) :
    List (Option Nat) → Nat → List (Option Nat)
  | [], _ => []
  | some v :: rest, nextId => some v :: ascendModuleGo used hasUsed rest nextId
  | none :: rest, nextId =>
    some (if hasUsed then skipUsed used nextId else nextId) ::
      ascendModuleGo used hasUsed rest ((if hasUsed then skipUsed used nextId else nextId) + 1)

/-- The function `assignAscendingModuleIds` (lines 565–590); modules are
embedded by their id slot, and the iterated `modules` argument is the
compilation's module list, as at the source's call sites. -/
def assignAscendingModuleIds (usedModuleIds : List String) (ids : List (Option Nat)) :
    List (Option Nat) :=
  let used := getUsedModuleIds usedModuleIds ids
  ascendModuleGo used (!used.isEmpty) ids 0

/-- The per-chunk assignment of `assignAscendingChunkIds` (lines 600–618). -/
def ascendChunkGo (used : List String) (hasUsed : Bool) : List Chunk → Nat → List Chunk
  | [], _ => []
  | c :: rest, nextId =>
    if c.id = none then
      { c with id := some (if hasUsed then skipUsed used nextId else nextId),
               ids := [if hasUsed then skipUsed used nextId else nextId] } ::
        ascendChunkGo used hasUsed rest ((if hasUsed then skipUsed used nextId else nextId) + 1)
    else c :: ascendChunkGo used hasUsed rest nextId

/-- The function `assignAscendingChunkIds` (lines 597–620). -/
def assignAscendingChunkIds (usedChunkIds : List String) (chunks : List Chunk) : List Chunk :=
  let used := getUsedChunkIds usedChunkIds chunks
  ascendChunkGo used (!used.isEmpty) chunks 0

/-! ### `SystemLibraryPlugin.parseOptions` -/

/-- JavaScript values that can reach the `name` field of the library options
in `SystemLibraryPlugin.parseOptions` (`src/lib/library/SystemLibraryPlugin.js`,
lines 52–62): absent (`undefined`), null, booleans, numbers (with `NaN`
kept apart), strings, arrays and plain objects; array/object payloads are
irrelevant to the guard and are not carried. -/
inductive JsVal where
  | undefined
  | null
  | boolean (b : Bool)
  | number (n : Int)
  | nan
  | string (s : String)
  | array
  | object
deriving DecidableEq

/-- JavaScript truthiness of an embedded value. -/
def JsVal.truthy : JsVal → Bool
  | .undefined => false
  | .null => false
  | .boolean b => b
  | .number n => n ≠ 0
  | .nan => false
  | .string s => s ≠ ""
  | .array => true
  | .object => true

/-- Whether `typeof v === "string"`. -/
def JsVal.isString : JsVal → Bool
  | .string _ => true
  | _ => false

/-- The method `SystemLibraryPlugin.parseOptions` (lines 52–62): a pure
function of the destructured `library.name`; it throws exactly when
`name && typeof name !== "string"` and otherwise returns the parsed options
`{ name }` with the value unchanged, so the failing case alters no
compilation state. -/
def parseOptions (name : JsVal) : Except String JsVal :=
  if name.truthy && !name.isString then
    Except.error "System.js library name must be a simple string or unset"
  else Except.ok name

/-! ### Properties of the digest scan (claim C6) -/

theorem scanDigest_lt : ∀ (ds : List Char) (len r B : Nat), 1 ≤ len → r < B →
    scanDigest ds r len < B * 10 ^ len := by
  intro ds
  induction ds with
  | nil =>
    intro len r B hlen hr
    obtain ⟨m, rfl⟩ : ∃ m, len = m + 1 := ⟨len - 1, by omega⟩
    simp only [scanDigest, Nat.add_sub_cancel, pow_succ]
    have hlt : r * 10 + 1 < B * 10 := by omega
    calc (r * 10 + 1) * 10 ^ m < (B * 10) * 10 ^ m :=
          Nat.mul_lt_mul_of_lt_of_le hlt (Nat.le_refl _) (Nat.pos_pow_of_pos _ (by omega))
      _ = B * (10 ^ m * 10) := by ring
  | cons c rest ih =>
    intro len r B hlen hr
    obtain ⟨m, rfl⟩ : ∃ m, len = m + 1 := ⟨len - 1, by omega⟩
    simp only [scanDigest]
    by_cases hc : c.toNat < 58
    · simp only [if_pos hc]
      have hd : c.toNat - 48 < 10 := by omega
      by_cases hl : m + 1 ≤ 1
      · have hm0 : m = 0 := by omega
        subst hm0
        rw [if_pos hl, pow_one]
        omega
      · simp only [if_neg hl, Nat.add_sub_cancel]
        have h2 : r * 10 + (c.toNat - 48) < B * 10 := by omega
        have hm1 : 1 ≤ m := by omega
        calc scanDigest rest (r * 10 + (c.toNat - 48)) m < B * 10 * 10 ^ m :=
              ih m _ (B * 10) hm1 h2
          _ = B * 10 ^ (m + 1) := by rw [pow_succ]; ring
    · simp only [if_neg hc]
      exact ih (m + 1) r B hlen hr

theorem digitCount_cons_digit {c : Char} (rest : List Char) (hc : c.toNat < 58) :
    digitCount (c :: rest) = digitCount rest + 1 := by
  simp [digitCount, List.filter_cons, hc]

theorem digitCount_cons_nondigit {c : Char} (rest : List Char) (hc : ¬c.toNat < 58) :
    digitCount (c :: rest) = digitCount rest := by
  simp [digitCount, List.filter_cons, hc]

theorem scanDigest_exhaust : ∀ (ds : List Char) (r len : Nat), digitCount ds < len →
    scanDigest ds r len = (foldDigits r ds * 10 + 1) * 10 ^ (len - digitCount ds - 1) := by
  intro ds
  induction ds with
  | nil =>
    intro r len _
    simp [scanDigest, foldDigits, digitCount]
  | cons c rest ih =>
    intro r len h
    by_cases hc : c.toNat < 58
    · rw [digitCount_cons_digit rest hc] at h ⊢
      have hl : ¬len ≤ 1 := by omega
      simp only [scanDigest, if_pos hc, if_neg hl, foldDigits]
      rw [ih (r * 10 + (c.toNat - 48)) (len - 1) (by omega)]
      have heq : len - 1 - digitCount rest - 1 = len - (digitCount rest + 1) - 1 := by omega
      rw [heq]
    · rw [digitCount_cons_nondigit rest hc] at h ⊢
      simp only [scanDigest, if_neg hc, foldDigits]
      exact ih r len h

theorem scanDigest_enough : ∀ (ds : List Char) (r len : Nat), 1 ≤ len →
    len ≤ digitCount ds →
    scanDigest ds r len = foldDigits r ((ds.filter (fun c => c.toNat < 58)).take len) := by
  intro ds
  induction ds with
  | nil =>
    intro r len h1 h2
    simp [digitCount] at h2
    omega
  | cons c rest ih =>
    intro r len h1 h2
    by_cases hc : c.toNat < 58
    · rw [digitCount_cons_digit rest hc] at h2
      obtain ⟨m, rfl⟩ : ∃ m, len = m + 1 := ⟨len - 1, by omega⟩
      by_cases hl : m + 1 ≤ 1
      · have hm0 : m = 0 := by omega
        simp [scanDigest, if_pos hc, hl, hm0, List.filter_cons, List.take_succ_cons, foldDigits]
      · simp only [scanDigest, if_pos hc, if_neg hl, List.filter_cons, Nat.add_sub_cancel]
        rw [ih (r * 10 + (c.toNat - 48)) m (by omega) (by omega)]
        simp [hc, List.take_succ_cons, foldDigits]
    · rw [digitCount_cons_nondigit rest hc] at h2
      simp only [scanDigest, if_neg hc, List.filter_cons]
      rw [ih r len h1 h2]
      simp [hc]

/-- C6: for every input string and every `maxDigits ≥ 1`, `getHashNumber`
yields a natural number below `10 ^ maxDigits`; scanning the hex digest left
to right it folds its decimal characters into a base-10 accumulator,
stopping after `maxDigits` of them, and when the digest is exhausted with
`k = maxDigits - digitCount ≥ 1` digits still missing, it yields
`(accumulator * 10 + 1) * 10 ^ (k - 1)`. -/
theorem getHashNumber_bounded_and_padded (s : String) (len : Nat) (hlen : 1 ≤ len) :
    getHashNumber s len < 10 ^ len ∧
      (len ≤ digitCount (md4hex s).data →
        getHashNumber s len =
          foldDigits 0 (((md4hex s).data.filter (fun c => c.toNat < 58)).take len)) ∧
      (digitCount (md4hex s).data < len →
        getHashNumber s len =
          (foldDigits 0 (md4hex s).data * 10 + 1) *
            10 ^ (len - digitCount (md4hex s).data - 1)) := by
  refine ⟨?_, ?_, ?_⟩
  · have := scanDigest_lt (md4hex s).data len 0 1 hlen (by omega)
    simpa [getHashNumber] using this
  · intro h
    exact scanDigest_enough _ 0 len hlen h
  · intro h
    exact scanDigest_exhaust _ 0 len h

/-- Witness for C6 at the empty string with `maxDigits = 32`: the digest of
`""` holds fewer than 32 decimal characters, so the padding branch is
exercised concretely. -/
theorem getHashNumber_bounded_and_padded_witness :
    getHashNumber "" 32 < 10 ^ 32 ∧
      (32 ≤ digitCount (md4hex "").data →
        getHashNumber "" 32 =
          foldDigits 0 (((md4hex "").data.filter (fun c => c.toNat < 58)).take 32)) ∧
      (digitCount (md4hex "").data < 32 →
        getHashNumber "" 32 =
          (foldDigits 0 (md4hex "").data * 10 + 1) *
            10 ^ (32 - digitCount (md4hex "").data - 1)) :=
  getHashNumber_bounded_and_padded "" 32 (by decide)

/-! ### Properties of the sanitizer (claim C5) -/

/-- The contract `matches ^[A-Za-z0-9_-]+$` stated by the spec: at least one
character, all of them in the class. -/
def matchesIdCharClass (s : String) : Bool := s ≠ "" && s.data.all isIdChar

theorem isIdChar_of_not_bad {first : Bool} {c : Char} (h : ¬isBadAt first c = true) :
    isIdChar c = true := by
  simp [isBadAt] at h
  rcases first with _ | _ <;> simp_all

theorem replaceBadRuns_all_idChar :
    ∀ (l : List Char) (first inRun : Bool),
      (replaceBadRuns l first inRun).all isIdChar = true := by
  intro l
  induction l with
  | nil => intro first inRun; rfl
  | cons c rest ih =>
    intro first inRun
    by_cases hbad : isBadAt first c = true
    · cases inRun with
      | true => simpa [replaceBadRuns, hbad] using ih false true
      | false =>
        simp only [replaceBadRuns, if_pos hbad, if_neg (by simp : ¬(false = true)),
          List.singleton_append, List.all_cons, Bool.and_eq_true]
        exact ⟨by decide, ih false true⟩
    · simp only [replaceBadRuns, if_neg hbad, List.all_cons, Bool.and_eq_true]
      exact ⟨isIdChar_of_not_bad hbad, ih false false⟩

theorem replaceBadRuns_nil_iff :
    ∀ (l : List Char) (first : Bool), replaceBadRuns l first false = [] ↔ l = [] := by
  intro l first
  cases l with
  | nil => simp [replaceBadRuns]
  | cons c rest =>
    constructor
    · intro h
      by_cases hbad : isBadAt first c = true
      · simp [replaceBadRuns, hbad] at h
      · simp [replaceBadRuns, hbad] at h
    · intro h
      simp at h

theorem stringMk_eq_empty_iff (l : List Char) : String.mk l = "" ↔ l = [] := by
  constructor
  · intro h
    simpa using congrArg String.data h
  · intro h
    rw [h]

/-- C5 counterexample: for the input `"./"` (likewise `""`), `requestToId`
returns the empty string, which does not match `^[A-Za-z0-9_-]+$` — the
match requires at least one character. -/
theorem requestToId_empty_output : requestToId "./" = "" ∧
    matchesIdCharClass (requestToId "./") = false := by
  refine ⟨by decide, by decide⟩

/-- C5 amended: every character of `requestToId s` lies in `[A-Za-z0-9_-]`,
and the result is empty exactly when the input is empty after removal of its
leading `./` and `../` segments; for every other input the full contract
`^[A-Za-z0-9_-]+$` holds. -/
theorem requestToId_sanitizes (s : String) :
    (requestToId s).data.all isIdChar = true ∧
      (requestToId s = "" ↔ stripDotSegments s = "") := by
  constructor
  · exact replaceBadRuns_all_idChar (stripDotsList s.data) true false
  · rw [requestToId, stripDotSegments, stringMk_eq_empty_iff, stringMk_eq_empty_iff]
    exact replaceBadRuns_nil_iff (stripDotsList s.data) true

/-! ### Properties of the numeric-name guard (claim C8) -/

theorem foldl_digits_lt : ∀ (l : List Nat) (r : Nat), (∀ d ∈ l, d < 10) →
    List.foldl (fun a d => a * 10 + d) r l < (r + 1) * 10 ^ l.length := by
  intro l
  induction l with
  | nil =>
    intro r _
    simp
  | cons d rest ih =>
    intro r h
    have hd : d < 10 := h d (List.mem_cons_self d rest)
    have h1 := ih (r * 10 + d) (fun x hx => h x (List.mem_cons_of_mem _ hx))
    have h2 : (r * 10 + d + 1) ≤ (r + 1) * 10 := by omega
    calc List.foldl (fun a d => a * 10 + d) (r * 10 + d) rest
        < (r * 10 + d + 1) * 10 ^ rest.length := h1
      _ ≤ (r + 1) * 10 * 10 ^ rest.length := Nat.mul_le_mul_right _ h2
      _ = (r + 1) * 10 ^ (rest.length + 1) := by rw [pow_succ]; ring

theorem digitsVal_lt_of_digits (l : List Nat) (h : ∀ d ∈ l, d < 10) :
    digitsVal l < 10 ^ l.length := by
  simpa using foldl_digits_lt l 0 h

/-- Per the spec's words, a string that "parses as a number".  This is
restricted to nonempty unsigned decimal-digit literals, an
under-approximation: any string it accepts parses as a number under every
broader reading, so the counterexample below refutes the claim under any
such reading. -/
def specParsesAsNumber (s : String) : Bool :=
  s ≠ "" && s.data.all (fun c => 48 ≤ c.toNat && c.toNat ≤ 57)

/-- C8 counterexample: `"01"` parses as a number, yet `avoidNumber` returns
it unchanged and not `"_01"` — the code tests `str === +str + ""`, and
`String(Number("01"))` is `"1"`, not `"01"`. -/
theorem avoidNumber_leading_zero : specParsesAsNumber "01" = true ∧
    avoidNumber "01" = "01" ∧ avoidNumber "01" ≠ "_" ++ "01" := by
  refine ⟨by decide, by decide, by decide⟩

theorem splitOnChar_eq_none {c : Char} : ∀ {l : List Char}, c ∉ l → splitOnChar c l = none := by
  intro l
  induction l with
  | nil => intro _; rfl
  | cons x rest ih =>
    intro h
    have hx : ¬x = c := fun e => h (by rw [← e]; exact List.mem_cons_self x rest)
    rw [splitOnChar, if_neg hx, ih (fun hm => h (List.mem_cons_of_mem _ hm))]

theorem jsCanonicalPositive_digits (l : List Char) (hne : l ≠ [])
    (hall : ∀ x ∈ l, 48 ≤ x.toNat ∧ x.toNat ≤ 57) (hlen : l.length ≤ 15) :
    jsCanonicalPositive l = true ↔ (l = ['0'] ∨ l.head? ≠ some '0') := by
  have hE : splitOnChar 'e' l = none := by
    apply splitOnChar_eq_none
    intro hm
    have h2 := (hall 'e' hm).2
    rw [show ('e').toNat = 101 from rfl] at h2
    omega
  have hDot : splitOnChar '.' l = none := by
    apply splitOnChar_eq_none
    intro hm
    have h2 := (hall '.' hm).1
    rw [show ('.').toNat = 46 from rfl] at h2
    omega
  have hAll : l.all isDigitChar = true := by
    rw [List.all_eq_true]
    intro x hx
    have := hall x hx
    simp only [isDigitChar, Bool.and_eq_true, decide_eq_true_eq]
    omega
  have hv : digitsToNat l < 9007199254740992 := by
    have hb : ∀ d ∈ l.map (fun d => d.toNat - 48), d < 10 := by
      intro d hd
      obtain ⟨x, hx, rfl⟩ := List.mem_map.mp hd
      have := hall x hx
      omega
    have h1 := digitsVal_lt_of_digits _ hb
    have hlen2 : (l.map (fun d => d.toNat - 48)).length ≤ 15 := by simpa using hlen
    have hple : (10 : Nat) ^ (l.map (fun d => d.toNat - 48)).length ≤ 10 ^ 15 :=
      Nat.pow_le_pow_right (by omega) hlen2
    have : digitsToNat l < 10 ^ 15 := lt_of_lt_of_le h1 hple
    omega
  have hlen21 : l.length ≤ 21 := by omega
  simp only [jsCanonicalPositive, hE, jsCanonicalPlain, hDot, hAll, hv, hne, hlen21,
    Bool.true_and, Bool.and_eq_true, Bool.or_eq_true, decide_eq_true_eq,
    ne_eq, not_false_eq_true, true_and, iff_true, or_true, true_or, and_true]

theorem isCanonical_digit_iff (s : String) (hne : s ≠ "")
    (hdig : s.data.all (fun c => 48 ≤ c.toNat && c.toNat ≤ 57) = true)
    (hlen : s.data.length ≤ 15) :
    isCanonicalNumString s = true ↔ (s = "0" ∨ s.data.head? ≠ some '0') := by
  cases s with
  | mk l =>
    cases l with
    | nil => exact absurd rfl hne
    | cons c cs =>
      simp only [List.all_cons, List.all_eq_true, Bool.and_eq_true, decide_eq_true_eq] at hdig
      obtain ⟨⟨hc48, hc57⟩, hcs⟩ := hdig
      have hdataeq : (String.mk (c :: cs)).data = c :: cs := rfl
      have hall : ∀ x ∈ c :: cs, 48 ≤ x.toNat ∧ x.toNat ≤ 57 := by
        intro x hx
        rcases List.mem_cons.mp hx with rfl | hx2
        · exact ⟨hc48, hc57⟩
        · exact hcs x hx2
      have hnotdash : ¬c = '-' := by
        intro h
        rw [h, show ('-').toNat = 45 from rfl] at hc48
        omega
      have hN : ¬(String.mk (c :: cs) = "NaN") := by
        intro h
        have := congrArg String.data h
        simp at this
        obtain ⟨hc, -⟩ := this
        rw [hc, show ('N').toNat = 78 from rfl] at hc57
        omega
      have hI : ¬(String.mk (c :: cs) = "Infinity") := by
        intro h
        have := congrArg String.data h
        simp at this
        obtain ⟨hc, -⟩ := this
        rw [hc, show ('I').toNat = 73 from rfl] at hc57
        omega
      have hmI : ¬(String.mk (c :: cs) = "-Infinity") := by
        intro h
        have := congrArg String.data h
        simp at this
        obtain ⟨hc, -⟩ := this
        rw [hc, show ('-').toNat = 45 from rfl] at hc48
        omega
      have hbranch : isCanonicalNumString (String.mk (c :: cs)) = jsCanonicalPositive (c :: cs) := by
        rw [isCanonicalNumString]
        simp only [hdataeq, List.head?_cons]
        rw [if_neg (by simp only [Option.some.injEq]; exact hnotdash)]
        simp [hN, hI, hmI]
      have hpos := jsCanonicalPositive_digits (c :: cs) (by simp) hall (by simpa using hlen)
      rw [hbranch, hpos]
      constructor
      · rintro (h | h)
        · left
          rw [show ("0" : String) = String.mk ['0'] from rfl, h]
        · right
          simpa [hdataeq] using h
      · rintro (h | h)
        · left
          have := congrArg String.data h
          simpa using this
        · right
          simpa [hdataeq] using h

/-- C8 amended: `avoidNumber` prefixes an underscore exactly when the whole
string is already the canonical JS string rendering of its own numeric value
(the code's test `str === +str + ""`), a strictly stronger condition than
parsing as a number.  On a nonempty string of at most 15 decimal digits this
holds exactly when the string has no leading zero or is exactly "0"; longer
digit strings can fail the test even without a leading zero, because JS
renders their nearest double in shortest form — `2 ^ 60 =
1152921504606846976` renders as "1152921504606847000", so the former is
returned unchanged while the latter is prefixed.  In particular "123" is
prefixed and "abc" is returned unchanged, while "01" and "1e2" parse as
numbers yet are also returned unchanged. -/
theorem avoidNumber_characterization (s : String) (hne : s ≠ "")
    (hdig : s.data.all (fun c => 48 ≤ c.toNat && c.toNat ≤ 57) = true)
    (hlen : s.data.length ≤ 15) :
    (avoidNumber s = "_" ++ s ↔ s = "0" ∨ s.data.head? ≠ some '0') ∧
      avoidNumber "123" = "_123" ∧ avoidNumber "abc" = "abc" ∧
      avoidNumber "01" = "01" ∧ avoidNumber "1e2" = "1e2" ∧
      avoidNumber "1152921504606846976" = "1152921504606846976" ∧
      avoidNumber "1152921504606847000" = "_" ++ "1152921504606847000" := by
  refine ⟨?_, by decide, by decide, by decide, by decide, by decide, by decide⟩
  rw [← isCanonical_digit_iff s hne hdig hlen]
  constructor
  · intro h
    by_cases hc : isCanonicalNumString s = true
    · exact hc
    · rw [avoidNumber, if_neg hc] at h
      have := congrArg String.length h
      rw [String.length_append] at this
      have h1 : ("_" : String).length = 1 := rfl
      omega
  · intro h
    rw [avoidNumber, if_pos h]

/-- Witness for C8 at the two-digit string "42". -/
theorem avoidNumber_characterization_witness :
    (avoidNumber "42" = "_" ++ "42" ↔ ("42" : String) = "0" ∨ "42".data.head? ≠ some '0') ∧
      avoidNumber "123" = "_123" ∧ avoidNumber "abc" = "abc" ∧
      avoidNumber "01" = "01" ∧ avoidNumber "1e2" = "1e2" ∧
      avoidNumber "1152921504606846976" = "1152921504606846976" ∧
      avoidNumber "1152921504606847000" = "_" ++ "1152921504606847000" :=
  avoidNumber_characterization "42" (by decide) (by decide) (by decide)

set_option maxRecDepth 40000 in
/-- Test vectors pinning the modelled round-trip test `str === +str + ""`
to the JavaScript semantics across its regimes: exactly representable and
non-representable large integers, a fractional and an exponent-form
rendering, the plain/exponent form boundary at `10 ^ -7`, and the
small-exponent regime. -/
theorem isCanonicalNumString_vectors :
    isCanonicalNumString "9007199254740992" = true ∧
      isCanonicalNumString "9007199254740993" = false ∧
      isCanonicalNumString "0.5" = true ∧
      isCanonicalNumString "0.50" = false ∧
      isCanonicalNumString "0.30000000000000004" = true ∧
      isCanonicalNumString "1e+21" = true ∧
      isCanonicalNumString "1e21" = false ∧
      isCanonicalNumString "100000000000000000000" = true ∧
      isCanonicalNumString "1e-7" = true ∧
      isCanonicalNumString "0.0000001" = false ∧
      isCanonicalNumString "0.000001" = true ∧
      isCanonicalNumString "1e-40" = true ∧
      isCanonicalNumString "10e-40" = false ∧
      isCanonicalNumString "-0.5" = true ∧
      isCanonicalNumString "-0" = false := by
  refine ⟨by decide, by decide, by decide, by decide, by decide, by decide, by decide, by decide,
    by decide, by decide, by decide, by decide, by decide, by decide, by decide⟩

/-! ### Properties of `parseOptions` (claim C9) -/

/-- C9 counterexample: the number `0` is a present, non-string library name,
yet `parseOptions` accepts it without raising — the guard
`name && typeof name !== "string"` tests truthiness, and `0` is falsy. -/
theorem parseOptions_accepts_falsy_nonstring :
    JsVal.number 0 ≠ JsVal.undefined ∧ (JsVal.number 0).isString = false ∧
      parseOptions (JsVal.number 0) = Except.ok (JsVal.number 0) := by
  refine ⟨by decide, by decide, rfl⟩

/-- C9 amended: `parseOptions` raises its descriptive error exactly when the
name value is truthy and not a string; a string name, an absent name — and,
beyond the claim, any falsy value — is returned unchanged inside the parsed
options, and the failing case alters no state (the function is pure in the
name). -/
theorem parseOptions_error_iff (v : JsVal) :
    (parseOptions v = Except.error "System.js library name must be a simple string or unset" ↔
        v.truthy = true ∧ v.isString = false) ∧
      (v.truthy = false ∨ v.isString = true → parseOptions v = Except.ok v) := by
  by_cases hc : (v.truthy && !v.isString) = true
  · have hc2 : v.truthy = true ∧ v.isString = false := by simpa using hc
    obtain ⟨ht, hs2⟩ := hc2
    constructor
    · rw [parseOptions, if_pos hc]
      exact iff_of_true rfl ⟨ht, hs2⟩
    · intro h
      rcases h with h | h
      · rw [ht] at h
        exact absurd h (by simp)
      · rw [h] at hs2
        exact absurd hs2 (by simp)
  · constructor
    · rw [parseOptions, if_neg hc]
      apply iff_of_false
      · simp
      · intro hx
        apply hc
        rw [hx.1, hx.2]
        rfl
    · intro _
      rw [parseOptions, if_neg hc]

/-- Witness for C9 at a present string-valued name. -/
theorem parseOptions_error_iff_witness :
    parseOptions (JsVal.string "lib") = Except.ok (JsVal.string "lib") :=
  (parseOptions_error_iff (JsVal.string "lib")).2 (Or.inr (by decide))

/-! ### Properties of `shortenLongString` (claim C7) -/

theorem leBytes_length (k n : Nat) : (leBytes k n).length = k := by
  simp [leBytes]

theorem leBytes_lt (k n : Nat) : ∀ b ∈ leBytes k n, b < 256 := by
  intro b hb
  simp only [leBytes, List.mem_map] at hb
  obtain ⟨i, -, rfl⟩ := hb
  exact Nat.mod_lt _ (by omega)

theorem md4Bytes_length (msg : List Nat) : (md4Bytes msg).length = 16 := by
  simp [md4Bytes, leBytes_length]

theorem md4Bytes_lt (msg : List Nat) : ∀ b ∈ md4Bytes msg, b < 256 := by
  intro b hb
  simp only [md4Bytes, List.mem_append] at hb
  rcases hb with ((hb | hb) | hb) | hb <;> exact leBytes_lt _ _ b hb

/-- Lowercase hexadecimal characters, the alphabet of `digest("hex")`. -/
def isLowerHex (c : Char) : Bool := ('0' ≤ c && c ≤ '9') || ('a' ≤ c && c ≤ 'f')

theorem hexDigitChar_isLowerHex : ∀ n, n < 16 → isLowerHex (hexDigitChar n) = true := by decide

theorem bytesToHexChars_all_hex (l : List Nat) (h : ∀ b ∈ l, b < 256) :
    (bytesToHexChars l).all isLowerHex = true := by
  induction l with
  | nil => rfl
  | cons b rest ih =>
    have hb : b < 256 := h b (List.mem_cons_self b rest)
    simp only [bytesToHexChars, List.foldr_cons, List.all_cons, Bool.and_eq_true]
    refine ⟨hexDigitChar_isLowerHex _ (by omega), hexDigitChar_isLowerHex _ (Nat.mod_lt _ (by omega)), ?_⟩
    exact ih (fun x hx => h x (List.mem_cons_of_mem _ hx))

theorem bytesToHexChars_length (l : List Nat) : (bytesToHexChars l).length = 2 * l.length := by
  induction l with
  | nil => rfl
  | cons b rest ih =>
    simp only [bytesToHexChars, List.foldr_cons, List.length_cons] at ih ⊢
    omega

theorem md4hex_length (s : String) : (md4hex s).length = 32 := by
  show (bytesToHexChars (md4Bytes (strBytes s))).length = 32
  rw [bytesToHexChars_length, md4Bytes_length]

theorem md4hex_all_hex (s : String) : (md4hex s).data.all isLowerHex = true :=
  bytesToHexChars_all_hex _ (md4Bytes_lt _)

/-- A delimiter of 95 characters — one more than the truncation arithmetic
of `shortenLongString` can accommodate. -/
def longDelimiter : String := String.mk (List.replicate 95 'x')

/-- A 150-character string whose MD4 digest starts with `82a553`. -/
def sCollideA : String :=
  "aaaaaaaaaaaaaaaaaaaaaaaaaaaaaaaaaaaaaaaaaaaaaaaaaaaaaaaaaaaaaaaaaaaaaaaaaaaaaaaaaaaaaaaaaaaaaa00000000000000000000000000000000000000000000000000000262"

/-- A different 150-character string, equal to `sCollideA` on the first 94
characters, whose MD4 digest also starts with `82a553`. -/
def sCollideB : String :=
  "aaaaaaaaaaaaaaaaaaaaaaaaaaaaaaaaaaaaaaaaaaaaaaaaaaaaaaaaaaaaaaaaaaaaaaaaaaaaaaaaaaaaaaaaaaaaaa00000000000000000000000000000000000000000000000000004467"

set_option maxRecDepth 10000 in
/-- C7 counterexample: with a 95-character delimiter, `slice(0, -1)` keeps
149 of the 150 input characters and the result has length 250 > 100; and
the two distinct 150-character inputs `sCollideA`/`sCollideB` share their
first 94 characters yet receive the same 6-character hash suffix, so their
shortened forms coincide entirely instead of differing. -/
theorem shortenLongString_violations :
    ¬((shortenLongString (String.mk (List.replicate 150 'a')) longDelimiter).length ≤ 100) ∧
      sCollideA ≠ sCollideB ∧ sCollideA.data.take 94 = sCollideB.data.take 94 ∧
      sCollideA.length = 150 ∧ sCollideB.length = 150 ∧
      shortenLongString sCollideA "~" = shortenLongString sCollideB "~" := by
  refine ⟨by decide, by decide, by decide, by decide, by decide, by decide⟩

/-- C7 amended: a string below length 100 passes through unchanged; for a
string of length ≥ 100 and a delimiter of length at most 94 the result is
the first `94 - |delimiter|` characters of the input, the delimiter, and the
6 lowercase-hex characters of the content hash of the original string —
total length exactly 100.  The suffix depends only on the original string's
digest; two prefix-sharing inputs receive different suffixes exactly when
their 6-character hash prefixes differ, which the counterexample shows can
fail. -/
theorem shortenLongString_structure (s d : String) :
    (s.length < 100 → shortenLongString s d = s) ∧
      (100 ≤ s.length → d.length ≤ 94 →
        shortenLongString s d = String.mk (s.data.take (94 - d.length)) ++ d ++ getHash s 6 ∧
          (shortenLongString s d).length = 100 ∧
          (getHash s 6).length = 6 ∧ (getHash s 6).data.all isLowerHex = true) := by
  constructor
  · intro h
    rw [shortenLongString, if_pos h]
  · intro h1 h2
    have hnot : ¬s.length < 100 := by omega
    have hlen6 : (getHash s 6).length = 6 := by
      show ((md4hex s).data.take 6).length = 6
      rw [List.length_take]
      have := md4hex_length s
      simp only [String.length] at this
      omega
    have hhex : (getHash s 6).data.all isLowerHex = true := by
      rw [List.all_eq_true]
      intro c hc
      have hsub : c ∈ (md4hex s).data := List.take_subset _ _ hc
      exact List.all_eq_true.mp (md4hex_all_hex s) c hsub
    have heq : shortenLongString s d =
        String.mk (s.data.take (94 - d.length)) ++ d ++ getHash s 6 := by
      rw [shortenLongString, if_neg hnot, jsSliceToEnd]
      have hpos : ¬((100 : Int) - 6 - (d.length : Int) < 0) := by omega
      rw [if_neg hpos]
      have : ((100 : Int) - 6 - (d.length : Int)).toNat = 94 - d.length := by omega
      rw [this]
    refine ⟨heq, ?_, hlen6, hhex⟩
    rw [heq, String.length_append, String.length_append]
    have htake : (String.mk (s.data.take (94 - d.length))).length = 94 - d.length := by
      simp only [String.length]
      rw [List.length_take]
      have : s.data.length = s.length := rfl
      omega
    omega

set_option maxRecDepth 2000 in
/-- Witness for C7 at a string of exactly 100 characters with delimiter `~`. -/
theorem shortenLongString_structure_witness :
    (shortenLongString (String.mk (List.replicate 100 'a')) "~").length = 100 :=
  ((shortenLongString_structure (String.mk (List.replicate 100 'a')) "~").2
    (by decide) (by decide)).2.1

/-! ### Chunk-name computation mutates only the hints (claim C10) -/

/-- C10: computing a chunk's short or long candidate name sorts the chunk's
`idNameHints` in place — afterwards the hints are a sorted permutation of
the original hints — and `idNameHints` is the only chunk field either
function modifies: `name`, `id` and `ids` are unchanged. -/
theorem chunkName_sorts_hints_in_place (chunk : Chunk) (rootModules : List WpModule)
    (delimiter : String) (mpr : String → String) :
    ((getShortChunkName chunk rootModules delimiter).2.idNameHints.Sorted (· ≤ ·) ∧
      (getShortChunkName chunk rootModules delimiter).2.idNameHints.Perm chunk.idNameHints ∧
      (getShortChunkName chunk rootModules delimiter).2.name = chunk.name ∧
      (getShortChunkName chunk rootModules delimiter).2.id = chunk.id ∧
      (getShortChunkName chunk rootModules delimiter).2.ids = chunk.ids) ∧
    ((getLongChunkName mpr chunk rootModules delimiter).2.idNameHints.Sorted (· ≤ ·) ∧
      (getLongChunkName mpr chunk rootModules delimiter).2.idNameHints.Perm chunk.idNameHints ∧
      (getLongChunkName mpr chunk rootModules delimiter).2.name = chunk.name ∧
      (getLongChunkName mpr chunk rootModules delimiter).2.id = chunk.id ∧
      (getLongChunkName mpr chunk rootModules delimiter).2.ids = chunk.ids) := by
  refine ⟨⟨?_, ?_, rfl, rfl, rfl⟩, ⟨?_, ?_, rfl, rfl, rfl⟩⟩
  · exact List.sorted_insertionSort _ chunk.idNameHints
  · exact List.perm_insertionSort _ chunk.idNameHints
  · exact List.sorted_insertionSort _ chunk.idNameHints
  · exact List.perm_insertionSort _ chunk.idNameHints

/-! ### Evaluations of `assignNames` at its failing inputs (claims C1, C2) -/

/-- C1: evaluation of `assignNames` at the failing input.  Two items share
the long name "a" and the pre-pass reserved set is {"a0"}.  The loop
condition `nameToItems2.has(name + i) && usedIds.has(name + i)` is already
false at `i = 0`, because "a0" is reserved but not a candidate bucket name,
so the first item is assigned the reserved name "a0" — the claim's rule
("neither a candidate name of another still-unresolved bucket nor in the
reserved set") would skip to `i = 1`.  This contradicts the function's own
contract on `usedIds` ("already used ids, will not be assigned", line 453). -/
theorem assignNames_assigns_reserved :
    (assignNames [1, 2] (fun _ => "a") (fun _ _ => "a") (fun a b : Nat => a ≤ b)
        ["a0"]).assignments = [(1, "a0"), (2, "a1")] ∧
      List.contains ["a0"] "a0" = true := by
  refine ⟨by decide, by decide⟩

/-- C2: evaluation of `assignNames` at the failing input, with an *empty*
pre-pass reserved set.  Bucket "a1" (items 11, 12) commits "a10" and "a11";
bucket "a" (items 0–10) then counts `i` upwards and at `i = 10` the string
"a10" is not a bucket key, so the conjunctive loop condition fails and
"a10" is committed a second time: two different items end one completed
pass with the same committed name. -/
theorem assignNames_duplicate_commit :
    (assignNames [11, 12, 0, 1, 2, 3, 4, 5, 6, 7, 8, 9, 10]
        (fun n => if 11 ≤ n then "a1" else "a") (fun n _ => if 11 ≤ n then "a1" else "a")
        (fun a b : Nat => a ≤ b) []).assignments =
      [(11, "a10"), (12, "a11"), (0, "a0"), (1, "a1"), (2, "a2"), (3, "a3"), (4, "a4"),
        (5, "a5"), (6, "a6"), (7, "a7"), (8, "a8"), (9, "a9"), (10, "a10")] ∧
      ((assignNames [11, 12, 0, 1, 2, 3, 4, 5, 6, 7, 8, 9, 10]
        (fun n => if 11 ≤ n then "a1" else "a") (fun n _ => if 11 ≤ n then "a1" else "a")
        (fun a b : Nat => a ≤ b) []).assignments.map Prod.snd).count "a10" = 2 := by
  refine ⟨by decide, by decide⟩

/-! ### Order (in)dependence (claim C3) -/

/-- C3 counterexample: the same three items enumerated in two orders.  Item
0 has short name "a0"; items 1 and 2 share short and long name "a".  When
item 0 comes first, its singleton bucket takes "a0" and the "a"-bucket
assigns "a1", "a2"; when items 1, 2 come first, the "a"-bucket takes "a0"
(a candidate key but not yet used, so the conjunctive condition passes it)
and item 0, finding its name taken, ends with "a00" — the final assignment
of `assignNames` depends on the container's iteration order. -/
theorem assignNames_order_dependent :
    ([0, 1, 2] : List Nat).Perm [1, 2, 0] ∧
      List.lookup 0 ((assignNames [0, 1, 2] (fun n => if n = 0 then "a0" else "a")
        (fun n _ => if n = 0 then "a0" else "a") (fun a b : Nat => a ≤ b) []).assignments) =
        some "a0" ∧
      List.lookup 0 ((assignNames [1, 2, 0] (fun n => if n = 0 then "a0" else "a")
        (fun n _ => if n = 0 then "a0" else "a") (fun a b : Nat => a ≤ b) []).assignments) =
        some "a00" ∧
      ("a0" : String) ≠ "a00" := by
  refine ⟨by decide, by decide, by decide, by decide⟩

/-- C3 amended: `assignDeterministicIds` is insensitive to the iteration
order of its input: when the comparator is a total, transitive and
antisymmetric order, any two enumerations of the same multiset of items
yield the same run (the pass first sorts, and the sorted enumeration is
unique); in particular running it twice from the same initial state yields
identical id assignments.  `assignNames` enjoys no such guarantee — its
final assignment can depend on the enumeration order, as the
counterexample shows. -/
theorem assignDeterministicIds_perm_invariant {T : Type} (r : T → T → Prop) [DecidableRel r]
    [IsTotal T r] [IsTrans T r] [IsAntisymm T r] (items₁ items₂ : List T)
    (h : items₁.Perm items₂) (getName : T → String) (maxLength : Option Nat)
    (usedIds : List String) (fuel : Nat) :
    assignDeterministicIds items₁ getName r maxLength usedIds fuel =
      assignDeterministicIds items₂ getName r maxLength usedIds fuel := by
  have hsort : List.insertionSort r items₁ = List.insertionSort r items₂ :=
    List.eq_of_perm_of_sorted
      ((List.perm_insertionSort r items₁).trans (h.trans (List.perm_insertionSort r items₂).symm))
      (List.sorted_insertionSort r items₁) (List.sorted_insertionSort r items₂)
  rw [assignDeterministicIds, assignDeterministicIds, hsort, h.length_eq]

/-- Witness for C3 at two enumerations of the items {0, 1}. -/
theorem assignDeterministicIds_perm_invariant_witness :
    assignDeterministicIds [1, 0] (fun n => decimalString n) (fun a b : Nat => a ≤ b)
        none [] 5 =
      assignDeterministicIds [0, 1] (fun n => decimalString n) (fun a b : Nat => a ≤ b)
        none [] 5 :=
  assignDeterministicIds_perm_invariant _ [1, 0] [0, 1] (by decide) _ none [] 5

/-! ### Idempotence of the ascending assigners (claim C4) -/

theorem contains_eq_true_iff {l : List String} {a : String} :
    l.contains a = true ↔ a ∈ l :=
  List.elem_iff

theorem exists_unreserved (used : List String) (n : Nat) :
    ∃ k, k < used.length + 1 ∧ used.contains (decimalString (n + k)) = false := by
  by_contra hall
  push_neg at hall
  have hmem : ∀ k, k < used.length + 1 → decimalString (n + k) ∈ used := by
    intro k hk
    have hne := hall k hk
    cases hcase : used.contains (decimalString (n + k)) with
    | true => exact contains_eq_true_iff.mp hcase
    | false => exact absurd hcase hne
  have hnodup : ((List.range (used.length + 1)).map (fun k => decimalString (n + k))).Nodup := by
    refine List.Nodup.map ?_ (List.nodup_range _)
    intro a b hab
    have := decimalString_injective hab
    omega
  have hsub : ((List.range (used.length + 1)).map (fun k => decimalString (n + k))) ⊆ used := by
    intro x hx
    obtain ⟨k, hk, rfl⟩ := List.mem_map.mp hx
    exact hmem k (List.mem_range.mp hk)
  have hle := (List.subperm_of_subset hnodup hsub).length_le
  simp only [List.length_map, List.length_range] at hle
  omega

theorem skipUsedAux_not_used (used : List String) :
    ∀ (fuel n : Nat), (∃ k, k < fuel ∧ used.contains (decimalString (n + k)) = false) →
      used.contains (decimalString (skipUsedAux used fuel n)) = false := by
  intro fuel
  induction fuel with
  | zero =>
    intro n h
    obtain ⟨k, hk, -⟩ := h
    omega
  | succ f ih =>
    intro n h
    obtain ⟨k, hk, hfree⟩ := h
    by_cases hc : used.contains (decimalString n) = true
    · simp only [skipUsedAux, if_pos hc]
      have hk0 : k ≠ 0 := by
        intro hzero
        rw [hzero, Nat.add_zero] at hfree
        rw [hfree] at hc
        exact Bool.false_ne_true hc
      refine ih (n + 1) ⟨k - 1, by omega, ?_⟩
      have harith : n + 1 + (k - 1) = n + k := by omega
      rw [harith]
      exact hfree
    · simp only [skipUsedAux, if_neg hc]
      simpa using hc

/-- The value the reservation-skipping loop stops at is never reserved. -/
theorem skipUsed_not_used (used : List String) (n : Nat) :
    used.contains (decimalString (skipUsed used n)) = false :=
  skipUsedAux_not_used used (used.length + 1) n (exists_unreserved used n)

theorem ascendModuleGo_preserved (used : List String) (h : Bool) :
    ∀ (l : List (Option Nat)) (n i v : Nat), l.get? i = some (some v) →
      (ascendModuleGo used h l n).get? i = some (some v) := by
  intro l
  induction l with
  | nil =>
    intro n i v hv
    simp at hv
  | cons o rest ih =>
    intro n i v hv
    cases o with
    | some w =>
      cases i with
      | zero =>
        simp only [List.get?_cons_zero, Option.some.injEq] at hv
        simp [ascendModuleGo, hv]
      | succ j =>
        simp only [List.get?_cons_succ] at hv
        simpa [ascendModuleGo] using ih n j v hv
    | none =>
      cases i with
      | zero => simp at hv
      | succ j =>
        simp only [List.get?_cons_succ] at hv
        simpa [ascendModuleGo] using ih _ j v hv

theorem ascendModuleGo_all_some (used : List String) (h : Bool) :
    ∀ (l : List (Option Nat)) (n : Nat), ∀ x ∈ ascendModuleGo used h l n, x ≠ none := by
  intro l
  induction l with
  | nil =>
    intro n x hx
    simp [ascendModuleGo] at hx
  | cons o rest ih =>
    intro n x hx
    cases o with
    | some w =>
      rcases List.mem_cons.mp hx with rfl | hx2
      · simp
      · exact ih n x hx2
    | none =>
      rcases List.mem_cons.mp hx with rfl | hx2
      · simp
      · exact ih _ x hx2

theorem ascendModuleGo_fix (used : List String) (h : Bool) :
    ∀ (l : List (Option Nat)) (n : Nat), (∀ x ∈ l, x ≠ none) →
      ascendModuleGo used h l n = l := by
  intro l
  induction l with
  | nil => intro n _; rfl
  | cons o rest ih =>
    intro n hall
    cases o with
    | some w =>
      simp only [ascendModuleGo, List.cons.injEq, true_and]
      exact ih n (fun x hx => hall x (List.mem_cons_of_mem _ hx))
    | none => exact absurd rfl (hall none (List.mem_cons_self none rest))

theorem ascendModuleGo_assigns (used : List String) (h : Bool) (hco : h = false → used = []) :
    ∀ (l : List (Option Nat)) (n i : Nat), l.get? i = some none →
      ∃ m, (ascendModuleGo used h l n).get? i = some (some m) ∧
        used.contains (decimalString m) = false := by
  intro l
  induction l with
  | nil =>
    intro n i hv
    simp at hv
  | cons o rest ih =>
    intro n i hv
    cases o with
    | some w =>
      cases i with
      | zero => simp at hv
      | succ j =>
        simp only [List.get?_cons_succ] at hv
        obtain ⟨m, hm, hfree⟩ := ih n j hv
        exact ⟨m, by simpa [ascendModuleGo] using hm, hfree⟩
    | none =>
      cases i with
      | zero =>
        refine ⟨if h then skipUsed used n else n, by simp [ascendModuleGo], ?_⟩
        cases h with
        | true => simpa using skipUsed_not_used used n
        | false => rw [hco rfl]; rfl
      | succ j =>
        simp only [List.get?_cons_succ] at hv
        obtain ⟨m, hm, hfree⟩ := ih _ j hv
        exact ⟨m, by simpa [ascendModuleGo] using hm, hfree⟩

theorem ascendChunkGo_preserved (used : List String) (h : Bool) :
    ∀ (l : List Chunk) (n i : Nat) (c : Chunk), l.get? i = some c → c.id ≠ none →
      (ascendChunkGo used h l n).get? i = some c := by
  intro l
  induction l with
  | nil =>
    intro n i c hc _
    simp at hc
  | cons c0 rest ih =>
    intro n i c hc hid
    cases i with
    | zero =>
      simp only [List.get?_cons_zero, Option.some.injEq] at hc
      subst hc
      rw [ascendChunkGo, if_neg hid]
      rfl
    | succ j =>
      simp only [List.get?_cons_succ] at hc
      by_cases h0 : c0.id = none
      · rw [ascendChunkGo, if_pos h0]
        simpa using ih _ j c hc hid
      · rw [ascendChunkGo, if_neg h0]
        simpa using ih n j c hc hid

theorem ascendChunkGo_all_assigned (used : List String) (h : Bool) :
    ∀ (l : List Chunk) (n : Nat), ∀ x ∈ ascendChunkGo used h l n, x.id ≠ none := by
  intro l
  induction l with
  | nil =>
    intro n x hx
    simp [ascendChunkGo] at hx
  | cons c0 rest ih =>
    intro n x hx
    by_cases h0 : c0.id = none
    · rw [ascendChunkGo, if_pos h0] at hx
      rcases List.mem_cons.mp hx with rfl | hx2
      · simp
      · exact ih _ x hx2
    · rw [ascendChunkGo, if_neg h0] at hx
      rcases List.mem_cons.mp hx with rfl | hx2
      · exact h0
      · exact ih n x hx2

theorem ascendChunkGo_fix (used : List String) (h : Bool) :
    ∀ (l : List Chunk) (n : Nat), (∀ x ∈ l, x.id ≠ none) → ascendChunkGo used h l n = l := by
  intro l
  induction l with
  | nil => intro n _; rfl
  | cons c0 rest ih =>
    intro n hall
    have h0 : c0.id ≠ none := hall c0 (List.mem_cons_self c0 rest)
    rw [ascendChunkGo, if_neg h0]
    rw [ih n (fun x hx => hall x (List.mem_cons_of_mem _ hx))]

theorem ascendChunkGo_assigns (used : List String) (h : Bool) (hco : h = false → used = []) :
    ∀ (l : List Chunk) (n i : Nat) (c : Chunk), l.get? i = some c → c.id = none →
      ∃ m, (ascendChunkGo used h l n).get? i = some { c with id := some m, ids := [m] } ∧
        used.contains (decimalString m) = false := by
  intro l
  induction l with
  | nil =>
    intro n i c hc _
    simp at hc
  | cons c0 rest ih =>
    intro n i c hc hid
    cases i with
    | zero =>
      simp only [List.get?_cons_zero, Option.some.injEq] at hc
      subst hc
      refine ⟨if h then skipUsed used n else n, ?_, ?_⟩
      · rw [ascendChunkGo, if_pos hid]
        rfl
      · cases h with
        | true => simpa using skipUsed_not_used used n
        | false => rw [hco rfl]; rfl
    | succ j =>
      simp only [List.get?_cons_succ] at hc
      by_cases h0 : c0.id = none
      · rw [ascendChunkGo, if_pos h0]
        obtain ⟨m, hm, hfree⟩ := ih _ j c hc hid
        exact ⟨m, by simpa using hm, hfree⟩
      · rw [ascendChunkGo, if_neg h0]
        obtain ⟨m, hm, hfree⟩ := ih n j c hc hid
        exact ⟨m, by simpa using hm, hfree⟩

theorem detGo_assigns_all {T : Type} (getName : T → String) (len fuel : Nat) :
    ∀ (l : List T) (used : List String) (acc : List (T × Nat)) (asg : List (T × Nat))
      (u' : List String), detGo getName len fuel l used acc = some (asg, u') →
      asg.map Prod.fst = acc.map Prod.fst ++ l := by
  intro l
  induction l with
  | nil =>
    intro used acc asg u' hrun
    simp only [detGo, Option.some.injEq, Prod.mk.injEq] at hrun
    obtain ⟨h1, -⟩ := hrun
    rw [← h1]
    simp
  | cons item rest ih =>
    intro used acc asg u' hrun
    rw [detGo] at hrun
    cases hp : probeId (getName item) len used fuel 0 with
    | none => rw [hp] at hrun; exact absurd hrun (by simp)
    | some id =>
      rw [hp] at hrun
      have := ih _ _ asg u' hrun
      rw [this]
      simp

/-- C4 counterexample: a single item with identity "m".  The first run of
`assignDeterministicIds` commits id 1.  Re-running over the same item with
its committed id reserved (exactly what `getUsedModuleIds` reports after a
pass) does not skip the item: the probe rejects 1 as used and commits the
different id 9 — the committed id is not left unchanged. -/
theorem assignDeterministicIds_reassigns :
    assignDeterministicIds [0] (fun _ => "m") (fun a b : Nat => a ≤ b) none [] 20 =
        some ([(0, 1)], ["1"]) ∧
      assignDeterministicIds [0] (fun _ => "m") (fun a b : Nat => a ≤ b) none ["1"] 20 =
        some ([(0, 9)], ["1", "9"]) ∧ (1 : Nat) ≠ 9 := by
  refine ⟨by decide, by decide, by decide⟩

/-- C4 amended: the two ascending assigners are idempotent on committed
items — a module or chunk that already carries an id keeps it untouched
(for chunks including the alias list), a rerun of a completed pass changes
nothing, and an item whose id is still null receives an id that is not in
the used-id set (the pass reserves existing ids).  `assignDeterministicIds`,
by contrast, does not itself skip committed items: every item handed to it
is (re)assigned, so its callers must pre-filter, and re-running it over a
committed collection draws fresh ids (see the counterexample). -/
theorem ascending_idempotent_det_assigns_all :
    (∀ (u : List String) (ids : List (Option Nat)) (i v : Nat),
        ids.get? i = some (some v) →
        (assignAscendingModuleIds u ids).get? i = some (some v)) ∧
      (∀ (u : List String) (ids : List (Option Nat)),
        assignAscendingModuleIds u (assignAscendingModuleIds u ids) =
          assignAscendingModuleIds u ids) ∧
      (∀ (u : List String) (ids : List (Option Nat)) (i : Nat),
        ids.get? i = some none →
        ∃ m, (assignAscendingModuleIds u ids).get? i = some (some m) ∧
          (getUsedModuleIds u ids).contains (decimalString m) = false) ∧
      (∀ (u : List String) (cs : List Chunk) (i : Nat) (c : Chunk),
        cs.get? i = some c → c.id ≠ none →
        (assignAscendingChunkIds u cs).get? i = some c) ∧
      (∀ (u : List String) (cs : List Chunk),
        assignAscendingChunkIds u (assignAscendingChunkIds u cs) =
          assignAscendingChunkIds u cs) ∧
      (∀ (u : List String) (cs : List Chunk) (i : Nat) (c : Chunk),
        cs.get? i = some c → c.id = none →
        ∃ m, (assignAscendingChunkIds u cs).get? i =
            some { c with id := some m, ids := [m] } ∧
          (getUsedChunkIds u cs).contains (decimalString m) = false) ∧
      (∀ (T : Type) (items : List T) (getName : T → String) (r : T → T → Prop)
        (inst : DecidableRel r) (ml : Option Nat) (u : List String) (fuel : Nat)
        (asg : List (T × Nat)) (u' : List String),
        @assignDeterministicIds T items getName r inst ml u fuel = some (asg, u') →
        asg.map Prod.fst = List.insertionSort r items) := by
  refine ⟨?_, ?_, ?_, ?_, ?_, ?_, ?_⟩
  · intro u ids i v hv
    exact ascendModuleGo_preserved _ _ ids 0 i v hv
  · intro u ids
    apply ascendModuleGo_fix
    intro x hx
    exact ascendModuleGo_all_some _ _ ids 0 x hx
  · intro u ids i hv
    apply ascendModuleGo_assigns
    · intro hfalse
      have : (getUsedModuleIds u ids).isEmpty = true := by
        simpa using congrArg Bool.not hfalse
      exact List.isEmpty_iff.mp this
    · exact hv
  · intro u cs i c hc hid
    exact ascendChunkGo_preserved _ _ cs 0 i c hc hid
  · intro u cs
    apply ascendChunkGo_fix
    intro x hx
    exact ascendChunkGo_all_assigned _ _ cs 0 x hx
  · intro u cs i c hc hid
    apply ascendChunkGo_assigns
    · intro hfalse
      have : (getUsedChunkIds u cs).isEmpty = true := by
        simpa using congrArg Bool.not hfalse
      exact List.isEmpty_iff.mp this
    · exact hc
    · exact hid
  · intro T items getName r inst ml u fuel asg u' hrun
    have := detGo_assigns_all getName _ fuel (List.insertionSort r items) u [] asg u' hrun
    simpa using this

/-- Witness for C4: a committed module id is preserved, concretely. -/
theorem ascending_idempotent_witness :
    (assignAscendingModuleIds ["5"] [some 7, none]).get? 0 = some (some 7) :=
  ascending_idempotent_det_assigns_all.1 ["5"] [some 7, none] 0 7 (by decide)
